import Mathlib

/-!
Verification of the conversation classification and aggregation pipeline of
`src/dashboard.py` (IPIC Play and Party dashboard).

Shallow embedding conventions:
* A Python dict field that the code reads with `d['k']` is modelled as an
  `Option` field; a `none` field read that way raises `KeyError`, modelled
  as `Except.error ()`.  A field read with `d.get('k', default)` is read
  through `Option.getD`.
* Python's substring test `pat in hay` is `pyIn pat hay`, list-infix on the
  strings' character lists.
* Timestamps (`updated_at`) are naturals (seconds since the epoch); the
  calendar-date part that pandas' `.dt.date` extracts is
  `dateOf t = t / 86400`, which discards the time of day.
* Python loops that can raise propagate `Except.error` and stop, exactly as
  an uncaught exception aborts the surrounding loop.
* The classification loop of `main` (dashboard.py lines 63-75) is
  `classify`; the detail-extraction comprehensions of the Leads /
  Escalations tabs (lines 129 and 140) are `detailList` / `detailOf`; the
  activity histogram (lines 96-100) is `conv_by_date`; the
  recent-conversations view (lines 115-116) is `recent_conversations`; the
  startup credential check (lines 20-27) is `init_supabase_client`.
-/

namespace Dashboard

/-- Payload of a stored message: the `data` dict, of which the dashboard only
ever reads the `content` key. -/
structure MsgData where
  content : Option String
deriving DecidableEq

/-- A stored chat message: the `type` key (`"human"`, `"ai"`, ...) and the
`data` dict. -/
structure Message where
  type : Option String
  data : Option MsgData
deriving DecidableEq

/-- A conversation row from the `conversation_history` table: id, message
history (the classification loop reads it via `conv.get('history', [])`,
hence it is optional) and the `updated_at` timestamp. -/
structure Conv where
  conversation_id : String
  history : Option (List Message)
  updated_at : Nat
deriving DecidableEq

instance {e a : Type} [DecidableEq e] [DecidableEq a] : DecidableEq (Except e a)
  | .ok x, .ok y => if h : x = y then .isTrue (by rw [h]) else .isFalse (by simp [h])
  | .ok _, .error _ => .isFalse (by simp)
  | .error _, .ok _ => .isFalse (by simp)
  | .error x, .error y => if h : x = y then .isTrue (by rw [h]) else .isFalse (by simp [h])

/-- Python's substring test `pat in hay` on strings. -/
def pyIn (pat hay : String) : Prop := pat.data <:+: hay.data

instance (pat hay : String) : Decidable (pyIn pat hay) :=
  inferInstanceAs (Decidable (pat.data <:+: hay.data))

/-- First lead marker phrase (dashboard.py line 70). -/
def leadPhrase1 : String := "I've scheduled your 7-day free trial"

/-- Second lead marker phrase (dashboard.py line 72). -/
def leadPhrase2 : String := "I've sent these details to our party coordinators"

/-- Escalation marker phrase (dashboard.py line 74). -/
def escPhrase : String := "I've passed your request on to our team"

/-- Substring filter of the Leads tab's detail extraction (line 129). -/
def leadDetailPat : String := "I've"

/-- Substring filter of the Escalations tab's detail extraction (line 140). -/
def escDetailPat : String := "I've passed your request"

/-- One iteration of the inner message loop of dashboard.py lines 68-75,
processing message `m` of conversation `c` against the accumulated
`(leads, escalations)` pair.  `message['type']` is read first; if the
message's type is `"ai"`, `message['data']['content']` is read and tested
against the three marker phrases with `if`/`elif`/`elif`; a missing key is
a `KeyError` (`Except.error ()`).  There is no `break`: the loop always
moves on to the next message. -/
def classifyMsg (c : Conv) (acc : List Conv × List Conv) (m : Message) :
    Except Unit (List Conv × List Conv) :=
  match m.type with
  | none => .error ()
  | some ty =>
    if ty = "ai" then
      match m.data with
      | none => .error ()
      | some d =>
        match d.content with
        | none => .error ()
        | some content =>
          if pyIn leadPhrase1 content then .ok (acc.1 ++ [c], acc.2)
          else if pyIn leadPhrase2 content then .ok (acc.1 ++ [c], acc.2)
          else if pyIn escPhrase content then .ok (acc.1, acc.2 ++ [c])
          else .ok acc
    else .ok acc

/-- The inner message loop of dashboard.py line 68: iterate `classifyMsg`
over a conversation's messages, propagating an uncaught `KeyError`. -/
def classifyMsgs (c : Conv) (acc : List Conv × List Conv) :
    List Message → Except Unit (List Conv × List Conv)
  | [] => .ok acc
  | m :: ms =>
    match classifyMsg c acc m with
    | .error e => .error e
    | .ok acc' => classifyMsgs c acc' ms

/-- Processing of one conversation by the loop: iterate over
`conv.get('history', [])`. -/
def classifyConv (acc : List Conv × List Conv) (c : Conv) :
    Except Unit (List Conv × List Conv) :=
  classifyMsgs c acc (c.history.getD [])

/-- The outer loop of dashboard.py line 67 over all conversations. -/
def classifyConvs (acc : List Conv × List Conv) :
    List Conv → Except Unit (List Conv × List Conv)
  | [] => .ok acc
  | c :: cs =>
    match classifyConv acc c with
    | .error e => .error e
    | .ok acc' => classifyConvs acc' cs

/-- The classification pass of dashboard.py lines 63-75: starting from
`leads = []`, `escalations = []`, loop over all conversations and all of
their messages.  The result is the final `(leads, escalations)` pair, or
an error if any dict access raised `KeyError`. -/
def classify (convs : List Conv) : Except Unit (List Conv × List Conv) :=
  classifyConvs ([], []) convs

/-! ### Total description of the classification pass on well-formed data -/

/-- The content string a message's `data['content']` holds, with `""` for a
missing field (only used to state properties; the code itself raises). -/
def contentOf (m : Message) : String :=
  match m.data with
  | some d => d.content.getD ""
  | none => ""

/-- A message is well formed for the classification loop when every dict
key the loop reads on it is present: `type` always, and `data['content']`
when the type is `"ai"`. -/
def wfMsg (m : Message) : Bool :=
  match m.type with
  | none => false
  | some ty =>
    if ty = "ai" then
      match m.data with
      | none => false
      | some d => d.content.isSome
    else true

/-- A conversation is well formed when all messages of its history are. -/
def wfConv (c : Conv) : Prop := ∀ m ∈ c.history.getD [], wfMsg m = true

/-- A message on which the loop body appends the conversation to `leads`:
an AI message whose content contains one of the two lead marker phrases. -/
def msgLead (m : Message) : Prop :=
  m.type = some "ai" ∧
    (pyIn leadPhrase1 (contentOf m) ∨ pyIn leadPhrase2 (contentOf m))

/-- A message on which the loop body appends the conversation to
`escalations`: an AI message whose content contains the escalation marker
but (because of the `elif` chain) neither lead marker. -/
def msgEsc (m : Message) : Prop :=
  m.type = some "ai" ∧ ¬ pyIn leadPhrase1 (contentOf m) ∧
    ¬ pyIn leadPhrase2 (contentOf m) ∧ pyIn escPhrase (contentOf m)

instance (m : Message) : Decidable (msgLead m) :=
  inferInstanceAs (Decidable (_ ∧ _))

instance (m : Message) : Decidable (msgEsc m) :=
  inferInstanceAs (Decidable (_ ∧ _))

/-- Number of messages of a conversation on which the loop appends it to
`leads`. -/
def leadCount (c : Conv) : Nat :=
  (c.history.getD []).countP fun m => decide (msgLead m)

/-- Number of messages of a conversation on which the loop appends it to
`escalations`. -/
def escCount (c : Conv) : Nat :=
  (c.history.getD []).countP fun m => decide (msgEsc m)

/-- The `leads` list the pass produces on well-formed input: each
conversation repeated once per lead-matching message, in batch order. -/
def leadsOf : List Conv → List Conv
  | [] => []
  | c :: cs => List.replicate (leadCount c) c ++ leadsOf cs

/-- The `escalations` list the pass produces on well-formed input. -/
def escalationsOf : List Conv → List Conv
  | [] => []
  | c :: cs => List.replicate (escCount c) c ++ escalationsOf cs

/-- The loop body, described totally: on a lead-matching message append the
conversation to `leads`, on an escalation-matching one to `escalations`. -/
def applyMsg (c : Conv) (acc : List Conv × List Conv) (m : Message) :
    List Conv × List Conv :=
  if msgLead m then (acc.1 ++ [c], acc.2)
  else if msgEsc m then (acc.1, acc.2 ++ [c])
  else acc

lemma classifyMsg_ok_of_wf (c : Conv) (acc : List Conv × List Conv)
    (m : Message) (h : wfMsg m = true) :
    classifyMsg c acc m = .ok (applyMsg c acc m) := by
  rcases m with ⟨mty, mdata⟩
  cases mty with
  | none => simp [wfMsg] at h
  | some ty =>
    by_cases hty : ty = "ai"
    · subst hty
      cases mdata with
      | none => simp [wfMsg] at h
      | some d =>
        rcases d with ⟨cnt⟩
        cases cnt with
        | none => simp [wfMsg] at h
        | some s =>
          simp only [classifyMsg, applyMsg, msgLead, msgEsc, contentOf,
            Option.getD_some]
          by_cases h1 : pyIn leadPhrase1 s <;>
            by_cases h2 : pyIn leadPhrase2 s <;>
              by_cases h3 : pyIn escPhrase s <;>
                simp [h1, h2, h3]
    · simp only [classifyMsg, applyMsg, msgLead, msgEsc, hty]
      simp [hty]

lemma classifyMsg_err_of_not_wf (c : Conv) (acc : List Conv × List Conv)
    (m : Message) (h : wfMsg m = false) :
    classifyMsg c acc m = .error () := by
  rcases m with ⟨mty, mdata⟩
  cases mty with
  | none => simp [classifyMsg]
  | some ty =>
    by_cases hty : ty = "ai"
    · subst hty
      cases mdata with
      | none => simp [classifyMsg]
      | some d =>
        rcases d with ⟨cnt⟩
        cases cnt with
        | none => simp [classifyMsg]
        | some s => simp [wfMsg] at h
    · simp [wfMsg, hty] at h

lemma classifyMsgs_ok_of_wf (c : Conv) (msgs : List Message)
    (acc : List Conv × List Conv) (h : ∀ m ∈ msgs, wfMsg m = true) :
    classifyMsgs c acc msgs = .ok (msgs.foldl (applyMsg c) acc) := by
  induction msgs generalizing acc with
  | nil => simp [classifyMsgs]
  | cons m ms ih =>
    have hm : wfMsg m = true := h m (List.mem_cons_self m ms)
    rw [classifyMsgs, classifyMsg_ok_of_wf c acc m hm]
    show classifyMsgs c (applyMsg c acc m) ms =
      .ok (List.foldl (applyMsg c) acc (m :: ms))
    rw [List.foldl_cons]
    exact ih _ fun m' hm' => h m' (List.mem_cons_of_mem m hm')

lemma wf_of_classifyMsgs_ok (c : Conv) (msgs : List Message)
    (acc r : List Conv × List Conv) (h : classifyMsgs c acc msgs = .ok r) :
    ∀ m ∈ msgs, wfMsg m = true := by
  induction msgs generalizing acc with
  | nil => intro m hm; simp at hm
  | cons m ms ih =>
    intro m' hm'
    cases hw : wfMsg m with
    | false =>
      rw [classifyMsgs, classifyMsg_err_of_not_wf c acc m hw] at h
      exact Except.noConfusion
        (show (Except.error () : Except Unit (List Conv × List Conv)) = .ok r from h)
    | true =>
      rw [classifyMsgs, classifyMsg_ok_of_wf c acc m hw] at h
      have h2 : classifyMsgs c (applyMsg c acc m) ms = .ok r := h
      rcases List.mem_cons.mp hm' with h' | h'
      · exact h' ▸ hw
      · exact ih _ h2 m' h'

lemma msgLead_not_msgEsc {m : Message} (h : msgLead m) : ¬ msgEsc m := by
  rcases h with ⟨_, h2⟩
  rcases h2 with h2 | h2 <;> rintro ⟨_, hn1, hn2, _⟩ <;> [exact hn1 h2; exact hn2 h2]

lemma append_singleton_replicate (L : List Conv) (c : Conv) (k : Nat) :
    (L ++ [c]) ++ List.replicate k c = L ++ List.replicate (k + 1) c := by
  rw [List.append_assoc, List.singleton_append, ← List.replicate_succ]

lemma foldl_applyMsg (c : Conv) (msgs : List Message) (L E : List Conv) :
    msgs.foldl (applyMsg c) (L, E) =
      (L ++ List.replicate (msgs.countP fun m => decide (msgLead m)) c,
       E ++ List.replicate (msgs.countP fun m => decide (msgEsc m)) c) := by
  induction msgs generalizing L E with
  | nil => simp
  | cons m ms ih =>
    rw [List.foldl_cons]
    by_cases hl : msgLead m
    · have he : ¬ msgEsc m := msgLead_not_msgEsc hl
      have hcl : List.countP (fun m => decide (msgLead m)) (m :: ms)
          = List.countP (fun m => decide (msgLead m)) ms + 1 := by
        simp [List.countP_cons, hl]
      have hce : List.countP (fun m => decide (msgEsc m)) (m :: ms)
          = List.countP (fun m => decide (msgEsc m)) ms := by
        simp [List.countP_cons, he]
      rw [show applyMsg c (L, E) m = (L ++ [c], E) from by simp [applyMsg, hl]]
      rw [ih (L ++ [c]) E, hcl, hce, Prod.mk.injEq]
      exact ⟨append_singleton_replicate L c _, rfl⟩
    · by_cases he : msgEsc m
      · have hcl : List.countP (fun m => decide (msgLead m)) (m :: ms)
            = List.countP (fun m => decide (msgLead m)) ms := by
          simp [List.countP_cons, hl]
        have hce : List.countP (fun m => decide (msgEsc m)) (m :: ms)
            = List.countP (fun m => decide (msgEsc m)) ms + 1 := by
          simp [List.countP_cons, he]
        rw [show applyMsg c (L, E) m = (L, E ++ [c]) from by simp [applyMsg, hl, he]]
        rw [ih L (E ++ [c]), hcl, hce, Prod.mk.injEq]
        exact ⟨rfl, append_singleton_replicate E c _⟩
      · have hcl : List.countP (fun m => decide (msgLead m)) (m :: ms)
            = List.countP (fun m => decide (msgLead m)) ms := by
          simp [List.countP_cons, hl]
        have hce : List.countP (fun m => decide (msgEsc m)) (m :: ms)
            = List.countP (fun m => decide (msgEsc m)) ms := by
          simp [List.countP_cons, he]
        rw [show applyMsg c (L, E) m = (L, E) from by simp [applyMsg, hl, he]]
        rw [ih L E, hcl, hce]

lemma classifyConv_ok_of_wf (acc : List Conv × List Conv) (c : Conv)
    (h : wfConv c) :
    classifyConv acc c =
      .ok (acc.1 ++ List.replicate (leadCount c) c,
           acc.2 ++ List.replicate (escCount c) c) := by
  rw [classifyConv, classifyMsgs_ok_of_wf c _ acc h]
  rw [show acc = (acc.1, acc.2) from rfl, foldl_applyMsg]
  rfl

lemma classifyConvs_ok_of_wf (convs : List Conv) (L E : List Conv)
    (h : ∀ c ∈ convs, wfConv c) :
    classifyConvs (L, E) convs = .ok (L ++ leadsOf convs, E ++ escalationsOf convs) := by
  induction convs generalizing L E with
  | nil => simp [classifyConvs, leadsOf, escalationsOf]
  | cons c cs ih =>
    have hc : wfConv c := h c (List.mem_cons_self c cs)
    rw [classifyConvs, classifyConv_ok_of_wf (L, E) c hc]
    show classifyConvs (L ++ List.replicate (leadCount c) c,
      E ++ List.replicate (escCount c) c) cs = _
    rw [ih _ _ fun c' hc' => h c' (List.mem_cons_of_mem c hc')]
    simp [leadsOf, escalationsOf, List.append_assoc]

/-- On a batch whose messages are all well formed, the classification pass
completes and produces exactly `(leadsOf convs, escalationsOf convs)`. -/
theorem classify_ok_of_wf (convs : List Conv) (h : ∀ c ∈ convs, wfConv c) :
    classify convs = .ok (leadsOf convs, escalationsOf convs) := by
  have := classifyConvs_ok_of_wf convs [] [] h
  simpa [classify] using this

lemma wf_of_classifyConvs_ok (convs : List Conv) (acc r : List Conv × List Conv)
    (h : classifyConvs acc convs = .ok r) : ∀ c ∈ convs, wfConv c := by
  induction convs generalizing acc with
  | nil => intro c hc; simp at hc
  | cons c cs ih =>
    intro c' hc'
    cases hcc : classifyConv acc c with
    | error e =>
      rw [classifyConvs, hcc] at h
      exact Except.noConfusion
        (show (Except.error e : Except Unit (List Conv × List Conv)) = .ok r from h)
    | ok acc' =>
      rw [classifyConvs, hcc] at h
      have h2 : classifyConvs acc' cs = .ok r := h
      rcases List.mem_cons.mp hc' with h' | h'
      · subst h'
        exact wf_of_classifyMsgs_ok c' _ acc acc' hcc
      · exact ih _ h2 c' h'

/-- If the classification pass completes, every message of the batch was
well formed. -/
theorem wf_of_classify_ok (convs : List Conv) (r : List Conv × List Conv)
    (h : classify convs = .ok r) : ∀ c ∈ convs, wfConv c :=
  wf_of_classifyConvs_ok convs ([], []) r h

/-- If the classification pass completes, its result is exactly
`(leadsOf convs, escalationsOf convs)`. -/
theorem classify_ok_elim (convs : List Conv) (r : List Conv × List Conv)
    (h : classify convs = .ok r) : r = (leadsOf convs, escalationsOf convs) := by
  have hwf := wf_of_classify_ok convs r h
  have := classify_ok_of_wf convs hwf
  rw [h] at this
  exact Except.ok.inj this

/-! ### Membership, count and length of the produced lists -/

lemma mem_leadsOf {c : Conv} {convs : List Conv} :
    c ∈ leadsOf convs ↔ c ∈ convs ∧ leadCount c ≠ 0 := by
  induction convs with
  | nil => simp [leadsOf]
  | cons c' cs ih =>
    simp only [leadsOf, List.mem_append, List.mem_replicate, ih, List.mem_cons]
    constructor
    · rintro (⟨hn, he⟩ | ⟨hm, hn⟩)
      · exact ⟨Or.inl he, he ▸ hn⟩
      · exact ⟨Or.inr hm, hn⟩
    · rintro ⟨he | hm, hn⟩
      · exact Or.inl ⟨he ▸ hn, he⟩
      · exact Or.inr ⟨hm, hn⟩

lemma mem_escalationsOf {c : Conv} {convs : List Conv} :
    c ∈ escalationsOf convs ↔ c ∈ convs ∧ escCount c ≠ 0 := by
  induction convs with
  | nil => simp [escalationsOf]
  | cons c' cs ih =>
    simp only [escalationsOf, List.mem_append, List.mem_replicate, ih, List.mem_cons]
    constructor
    · rintro (⟨hn, he⟩ | ⟨hm, hn⟩)
      · exact ⟨Or.inl he, he ▸ hn⟩
      · exact ⟨Or.inr hm, hn⟩
    · rintro ⟨he | hm, hn⟩
      · exact Or.inl ⟨he ▸ hn, he⟩
      · exact Or.inr ⟨hm, hn⟩

lemma length_leadsOf (convs : List Conv) :
    (leadsOf convs).length = (convs.map leadCount).sum := by
  induction convs with
  | nil => simp [leadsOf]
  | cons c cs ih => simp [leadsOf, ih]

lemma length_escalationsOf (convs : List Conv) :
    (escalationsOf convs).length = (convs.map escCount).sum := by
  induction convs with
  | nil => simp [escalationsOf]
  | cons c cs ih => simp [escalationsOf, ih]

lemma count_leadsOf {convs : List Conv} (hnd : convs.Nodup) {c : Conv}
    (hc : c ∈ convs) : (leadsOf convs).count c = leadCount c := by
  induction convs with
  | nil => simp at hc
  | cons c' cs ih =>
    rw [List.nodup_cons] at hnd
    rw [leadsOf, List.count_append]
    rcases List.mem_cons.mp hc with h' | h'
    · subst h'
      have hnot : c ∉ leadsOf cs := fun hmem => hnd.1 (mem_leadsOf.mp hmem).1
      rw [List.count_eq_zero.mpr hnot, List.count_replicate_self, Nat.add_zero]
    · have hne : c' ≠ c := fun he => hnd.1 (he ▸ h')
      have hnotrep : c ∉ List.replicate (leadCount c') c' := by
        rw [List.mem_replicate]
        rintro ⟨-, he⟩
        exact hne he.symm
      rw [ih hnd.2 h', List.count_eq_zero.mpr hnotrep, Nat.zero_add]

lemma count_escalationsOf {convs : List Conv} (hnd : convs.Nodup) {c : Conv}
    (hc : c ∈ convs) : (escalationsOf convs).count c = escCount c := by
  induction convs with
  | nil => simp at hc
  | cons c' cs ih =>
    rw [List.nodup_cons] at hnd
    rw [escalationsOf, List.count_append]
    rcases List.mem_cons.mp hc with h' | h'
    · subst h'
      have hnot : c ∉ escalationsOf cs := fun hmem => hnd.1 (mem_escalationsOf.mp hmem).1
      rw [List.count_eq_zero.mpr hnot, List.count_replicate_self, Nat.add_zero]
    · have hne : c' ≠ c := fun he => hnd.1 (he ▸ h')
      have hnotrep : c ∉ List.replicate (escCount c') c' := by
        rw [List.mem_replicate]
        rintro ⟨-, he⟩
        exact hne he.symm
      rw [ih hnd.2 h', List.count_eq_zero.mpr hnotrep, Nat.zero_add]

/-! ### Detail extraction of the Leads and Escalations tabs

Lines 129 and 140 build, for each classified conversation, the list
`[msg['data']['content'] for msg in conv['history'] if msg['type'] == 'ai'
and pat in msg['data']['content']]` and take its element `[0]`; `pat` is
`"I've"` on the Leads tab and `"I've passed your request"` on the
Escalations tab.  `conv['history']` is a plain subscript here (no
`.get`), and `[0]` on an empty list raises `IndexError`. -/

/-- One step of the detail-extraction comprehension: test a message's type
and content against the filter substring, appending matching contents. -/
def detailMsgs (pat : String) (acc : List String) :
    List Message → Except Unit (List String)
  | [] => .ok acc
  | m :: ms =>
    match m.type with
    | none => .error ()
    | some ty =>
      if ty = "ai" then
        match m.data with
        | none => .error ()
        | some d =>
          match d.content with
          | none => .error ()
          | some content =>
            if pyIn pat content then detailMsgs pat (acc ++ [content]) ms
            else detailMsgs pat acc ms
      else detailMsgs pat acc ms

/-- The filtered content list of the comprehension, reading `conv['history']`
with a plain subscript. -/
def detailList (pat : String) (c : Conv) : Except Unit (List String) :=
  match c.history with
  | none => .error ()
  | some msgs => detailMsgs pat [] msgs

/-- The detail string shown in the table: element `[0]` of the filtered
list; `IndexError` (modelled as `Except.error ()`) when the list is empty. -/
def detailOf (pat : String) (c : Conv) : Except Unit String :=
  match detailList pat c with
  | .error e => .error e
  | .ok [] => .error ()
  | .ok (s :: _) => .ok s

/-- A message the detail comprehension keeps: an AI message whose content
contains the filter substring. -/
def msgMatch (pat : String) (m : Message) : Prop :=
  m.type = some "ai" ∧ pyIn pat (contentOf m)

instance (pat : String) (m : Message) : Decidable (msgMatch pat m) :=
  inferInstanceAs (Decidable (_ ∧ _))

/-- The contents the comprehension keeps, described totally. -/
def matchedContents (pat : String) (msgs : List Message) : List String :=
  msgs.filterMap fun m => if msgMatch pat m then some (contentOf m) else none

lemma detailMsgs_ok_of_wf (pat : String) (msgs : List Message)
    (acc : List String) (h : ∀ m ∈ msgs, wfMsg m = true) :
    detailMsgs pat acc msgs = .ok (acc ++ matchedContents pat msgs) := by
  induction msgs generalizing acc with
  | nil => simp [detailMsgs, matchedContents]
  | cons m ms ih =>
    have hm : wfMsg m = true := h m (List.mem_cons_self m ms)
    have hms := fun m' hm' => h m' (List.mem_cons_of_mem m hm')
    rcases m with ⟨mty, mdata⟩
    cases mty with
    | none => simp [wfMsg] at hm
    | some ty =>
      by_cases hty : ty = "ai"
      · subst hty
        cases mdata with
        | none => simp [wfMsg] at hm
        | some d =>
          rcases d with ⟨cnt⟩
          cases cnt with
          | none => simp [wfMsg] at hm
          | some s =>
            by_cases hp : pyIn pat s
            · have hmt : msgMatch pat ⟨some "ai", some ⟨some s⟩⟩ := by
                exact ⟨rfl, by simpa [contentOf] using hp⟩
              rw [show detailMsgs pat acc (⟨some "ai", some ⟨some s⟩⟩ :: ms)
                  = detailMsgs pat (acc ++ [s]) ms from by simp [detailMsgs, hp]]
              rw [ih _ hms]
              simp [matchedContents, hmt, contentOf]
            · have hmt : ¬ msgMatch pat ⟨some "ai", some ⟨some s⟩⟩ := by
                rintro ⟨-, hc⟩
                exact hp (by simpa [contentOf] using hc)
              rw [show detailMsgs pat acc (⟨some "ai", some ⟨some s⟩⟩ :: ms)
                  = detailMsgs pat acc ms from by simp [detailMsgs, hp]]
              rw [ih _ hms]
              simp [matchedContents, hmt]
      · have hmt : ¬ msgMatch pat ⟨some ty, mdata⟩ := by
          rintro ⟨hc, -⟩
          exact hty (by simpa using hc)
        rw [show detailMsgs pat acc (⟨some ty, mdata⟩ :: ms)
            = detailMsgs pat acc ms from by simp [detailMsgs, hty]]
        rw [ih _ hms]
        simp [matchedContents, hmt]

lemma pyIn_trans {p q s : String} (h1 : pyIn p q) (h2 : pyIn q s) : pyIn p s :=
  List.IsInfix.trans h1 h2

lemma msgMatch_leadDetail_of_msgLead {m : Message} (h : msgLead m) :
    msgMatch leadDetailPat m := by
  rcases h with ⟨hty, h1 | h2⟩
  · exact ⟨hty, pyIn_trans (by decide) h1⟩
  · exact ⟨hty, pyIn_trans (by decide) h2⟩

lemma msgMatch_escDetail_of_msgEsc {m : Message} (h : msgEsc m) :
    msgMatch escDetailPat m := by
  rcases h with ⟨hty, -, -, h3⟩
  exact ⟨hty, pyIn_trans (by decide) h3⟩

lemma matchedContents_ne_nil {pat : String} {msgs : List Message}
    (h : ∃ m ∈ msgs, msgMatch pat m) : matchedContents pat msgs ≠ [] := by
  rcases h with ⟨m, hm, hmt⟩
  intro hnil
  rw [matchedContents, List.filterMap_eq_nil_iff] at hnil
  have := hnil m hm
  rw [if_pos hmt] at this
  exact Option.noConfusion this

/-- Core lemma behind the two tab views: a well-formed conversation with a
message matching the filter has a non-empty filtered list, and the detail
shown is its first element. -/
lemma detail_of_match (pat : String) (c : Conv) (hwf : wfConv c)
    (msgs : List Message) (hh : c.history = some msgs)
    (hex : ∃ m ∈ msgs, msgMatch pat m) :
    ∃ s rest, matchedContents pat msgs = s :: rest ∧
      detailList pat c = .ok (s :: rest) ∧ detailOf pat c = .ok s := by
  have hwf' : ∀ m ∈ msgs, wfMsg m = true := by
    intro m hm
    exact hwf m (by rw [hh]; exact hm)
  have hlist : detailList pat c = .ok (matchedContents pat msgs) := by
    rw [detailList, hh]
    have := detailMsgs_ok_of_wf pat msgs [] hwf'
    simpa using this
  rcases hm : matchedContents pat msgs with _ | ⟨s, rest⟩
  · exact absurd hm (matchedContents_ne_nil hex)
  · refine ⟨s, rest, rfl, ?_, ?_⟩
    · rw [hlist, hm]
    · rw [detailOf, hlist, hm]

/-! ### Activity histogram (dashboard.py lines 96-100) -/

/-- The calendar-date part of an `updated_at` timestamp, as pandas'
`.dt.date` extracts it: the day index, discarding the time of day. -/
def dateOf (t : Nat) : Nat := t / 86400

/-- The date column `df['date']` of the conversations data frame. -/
def dateKeys (convs : List Conv) : List Nat :=
  convs.map fun c => dateOf c.updated_at

/-- The histogram `df.groupby('date').size()`: one entry per distinct date
value occurring in the column, paired with the number of conversations
updated on that date.  (pandas additionally sorts the rows by date; the
claims concern the date-to-count mapping, which row order does not
affect.) -/
def conv_by_date (convs : List Conv) : List (Nat × Nat) :=
  (dateKeys convs).dedup.map fun d => (d, (dateKeys convs).count d)

lemma count_dateKeys (convs : List Conv) (d : Nat) :
    (dateKeys convs).count d =
      convs.countP fun c => decide (dateOf c.updated_at = d) := by
  rw [dateKeys, List.count_eq_countP, List.countP_map]
  apply List.countP_congr
  intro c _
  simp [Function.comp]

/-! ### Recent-conversations view (dashboard.py lines 115-116) -/

/-- `sorted(conversations, key=lambda x: x['updated_at'], reverse=True)[:10]`:
the conversations sorted by `updated_at` descending (a stable sort, like
Python's `sorted`), truncated to the first 10. -/
def recent_conversations (convs : List Conv) : List Conv :=
  (convs.mergeSort fun a b => decide (b.updated_at ≤ a.updated_at)).take 10

lemma sorted_desc (convs : List Conv) :
    (convs.mergeSort fun a b => decide (b.updated_at ≤ a.updated_at)).Pairwise
      fun a b => b.updated_at ≤ a.updated_at := by
  have h := @List.sorted_mergeSort Conv
    (fun a b : Conv => decide (b.updated_at ≤ a.updated_at))
    (fun a b c hab hbc => by
      simp only [decide_eq_true_eq] at *
      omega)
    (fun a b => by
      simp only [Bool.or_eq_true, decide_eq_true_eq]
      omega)
    convs
  exact h.imp fun {a b} hab => by simpa using hab

/-! ### Startup configuration check (dashboard.py lines 20-27) -/

/-- Python truthiness of `os.getenv(...)`: falsy when the variable is unset
(`None`) or set to the empty string. -/
def pyFalsy : Option String → Bool
  | none => true
  | some s => s == ""

/-- The diagnostic `init_supabase_client` surfaces via `st.error`. -/
def credentialsErrorMsg : String :=
  "Supabase URL or Service Key is missing. Please check your .env file."

/-- The startup check of `init_supabase_client`: read `SUPABASE_URL` and
`SUPABASE_SERVICE_KEY` from the environment; if either is falsy, surface
the diagnostic and stop (`st.error` + `st.stop`, modelled as
`Except.error`); otherwise construct the client from the two values. -/
def init_supabase_client (url key : Option String) :
    Except String (String × String) :=
  if pyFalsy url || pyFalsy key then .error credentialsErrorMsg
  else .ok (url.getD "", key.getD "")

/-! ### Concrete inputs used by the claim theorems -/

/-- An assistant-authored message with the given content. -/
def aiMsg (s : String) : Message := ⟨some "ai", some ⟨some s⟩⟩

/-- A user-authored message with the given content. -/
def humanMsg (s : String) : Message := ⟨some "human", some ⟨some s⟩⟩

/-- The conversation of the first-match-wins test case: an escalation
marker followed by a lead marker, both in AI messages. -/
def c1conv : Conv :=
  ⟨"c1", some [aiMsg "I've passed your request on to our team",
               aiMsg "I've scheduled your 7-day free trial"], 0⟩

/-- A conversation with two AI messages that both contain the first lead
marker phrase. -/
def c2conv : Conv :=
  ⟨"c2", some [aiMsg "I've scheduled your 7-day free trial",
               aiMsg "Great news: I've scheduled your 7-day free trial for Saturday"], 0⟩

/-- A conversation whose first AI message has a `data` dict lacking the
`content` key, followed by a well-formed lead-marker message. -/
def c3convA : Conv :=
  ⟨"c3a", some [⟨some "ai", some ⟨none⟩⟩,
                aiMsg "I've scheduled your 7-day free trial"], 0⟩

/-- `c3convA` with the malformed message removed. -/
def c3convAfixed : Conv :=
  ⟨"c3a", some [aiMsg "I've scheduled your 7-day free trial"], 0⟩

/-- A well-formed escalation conversation sharing the batch with `c3convA`. -/
def c3convB : Conv :=
  ⟨"c3b", some [aiMsg "I've passed your request on to our team"], 0⟩

/-- A conversation whose only marker phrase sits in a human message, plus a
marker-free AI message. -/
def c6demo : Conv :=
  ⟨"c6", some [humanMsg "I've scheduled your 7-day free trial",
               aiMsg "Our play park is open from 9am to 5pm"], 0⟩

/-- A lead conversation whose first AI message contains `"I've"` but no
marker phrase; the marker message comes second. -/
def c8conv : Conv :=
  ⟨"c8", some [aiMsg "I've checked our schedule for you",
               aiMsg "I've scheduled your 7-day free trial"], 0⟩

/-- A one-message lead conversation. -/
def c9demo : Conv :=
  ⟨"c9", some [aiMsg "I've scheduled your 7-day free trial"], 7⟩

/-- A conversation with one lead-marker AI message and one escalation-marker
AI message. -/
def c10demo : Conv :=
  ⟨"c10", some [aiMsg "I've sent these details to our party coordinators",
                aiMsg "I've passed your request on to our team"], 3⟩

/-- Three conversations on two distinct calendar dates: two on day 0, one
on day 1. -/
def c4demo : List Conv :=
  [⟨"a", none, 100⟩, ⟨"b", none, 86399⟩, ⟨"d", none, 86405⟩]

/-- Twelve conversations with pairwise distinct `updated_at` values. -/
def c5demo : List Conv := (List.range 12).map fun i => ⟨"r", none, i⟩

/-! ### The claims -/

/-- C1: the spec claims first-match-wins with early exit — a conversation
whose AI messages are the escalation marker followed by a lead marker
should be recorded under escalation only.  The loop of dashboard.py lines
67-75 has no `break` and no per-conversation exit, so on this input the
conversation is appended to `escalations` (first message) and then also to
`leads` (second message): the code records it under both outcomes. -/
theorem C1_no_break_both_buckets :
    classify [c1conv] = .ok ([c1conv], [c1conv]) ∧
      c1conv ∈ leadsOf [c1conv] ∧ c1conv ∈ escalationsOf [c1conv] := by
  decide

/-- C2: the spec claims the output is a partition with no duplicates.  On a
conversation with two lead-marker AI messages the code appends it to
`leads` twice, so `leads` is not duplicate-free (and `C1_no_break_both_buckets`
shows the two lists need not be disjoint). -/
theorem C2_duplicate_in_leads :
    classify [c2conv] = .ok ([c2conv, c2conv], []) ∧
      List.count c2conv (leadsOf [c2conv]) = 2 := by
  decide

/-- C3: the spec claims a message missing `data['content']` is skipped and
the rest of the batch still classifies.  The code reads
`message['data']['content']` unguarded, so the `KeyError` aborts the whole
pass: the batch `[c3convA, c3convB]` produces no classification at all,
while with the malformed message absent the same batch classifies fully. -/
theorem C3_missing_content_aborts_batch :
    classify [c3convA, c3convB] = .error () ∧
      classify [c3convAfixed, c3convB] = .ok ([c3convAfixed], [c3convB]) := by
  decide

/-- C6: messages whose type is not `"ai"` are never tested against the
marker phrases, so a conversation whose AI messages contain no marker
(even if a human message contains one) lands in neither `leads` nor
`escalations`. -/
theorem C6_non_ai_skipped (convs L E : List Conv)
    (h : classify convs = .ok (L, E)) (c : Conv)
    (hno : ∀ m ∈ c.history.getD [], m.type = some "ai" →
      ¬ pyIn leadPhrase1 (contentOf m) ∧ ¬ pyIn leadPhrase2 (contentOf m) ∧
        ¬ pyIn escPhrase (contentOf m)) :
    c ∉ L ∧ c ∉ E := by
  have hLE := classify_ok_elim convs (L, E) h
  have hL : L = leadsOf convs := congrArg Prod.fst hLE
  have hE : E = escalationsOf convs := congrArg Prod.snd hLE
  constructor
  · rw [hL]
    intro hc
    rcases mem_leadsOf.mp hc with ⟨-, hcnt⟩
    apply hcnt
    rw [leadCount, List.countP_eq_zero]
    intro m hm
    simp only [decide_eq_true_eq]
    rintro ⟨hty, hor⟩
    rcases hno m hm hty with ⟨h1, h2, -⟩
    rcases hor with hx | hx
    · exact h1 hx
    · exact h2 hx
  · rw [hE]
    intro hc
    rcases mem_escalationsOf.mp hc with ⟨-, hcnt⟩
    apply hcnt
    rw [escCount, List.countP_eq_zero]
    intro m hm
    simp only [decide_eq_true_eq]
    rintro ⟨hty, -, -, hx⟩
    exact (hno m hm hty).2.2 hx

/-- C6 witness: a conversation whose only marker phrase is in a human
message classifies as neither lead nor escalation. -/
theorem C6_non_ai_skipped_witness :
    c6demo ∉ ([] : List Conv) ∧ c6demo ∉ ([] : List Conv) :=
  C6_non_ai_skipped [c6demo] [] [] (by decide) c6demo (by decide)

/-- C7 counterexample: both environment variables are present (one set to
the empty string), yet `init_supabase_client` takes the error branch —
Python's `not` treats a present-but-empty value like an absent one. -/
theorem C7_empty_string_counterexample :
    (some "" : Option String) ≠ none ∧ (some "key" : Option String) ≠ none ∧
      init_supabase_client (some "") (some "key") = .error credentialsErrorMsg := by
  decide

/-- C7 (amended): a `SUPABASE_URL` or `SUPABASE_SERVICE_KEY` that is absent
from the environment, or present but set to the empty string (both falsy
to Python's `not`), makes startup fail fast with the user-facing
diagnostic; when both are present and non-empty, client construction
proceeds without entering the error branch. -/
theorem C7_fail_fast (url key : Option String) :
    ((url = none ∨ url = some "" ∨ key = none ∨ key = some "") →
        init_supabase_client url key = .error credentialsErrorMsg) ∧
    ∀ u k, url = some u → key = some k → u ≠ "" → k ≠ "" →
      init_supabase_client url key = .ok (u, k) := by
  constructor
  · rintro (h | h | h | h) <;> subst h <;> simp [init_supabase_client, pyFalsy]
  · rintro u k rfl rfl hu hk
    simp [init_supabase_client, pyFalsy, hu, hk]

/-- C7 witness: an absent URL is fatal with the diagnostic, and so is a key
that is present but empty; a present non-empty pair constructs the
client. -/
theorem C7_fail_fast_witness :
    init_supabase_client none (some "k") = .error credentialsErrorMsg ∧
      init_supabase_client (some "u") (some "") = .error credentialsErrorMsg ∧
      init_supabase_client (some "u") (some "k") = .ok ("u", "k") :=
  ⟨(C7_fail_fast none (some "k")).1 (Or.inl rfl),
   (C7_fail_fast (some "u") (some "")).1 (Or.inr (Or.inr (Or.inr rfl))),
   (C7_fail_fast (some "u") (some "k")).2 "u" "k" rfl rfl (by decide) (by decide)⟩

/-- A conversation the pass put into `leads` has a well-formed, present
history holding a lead-matching message; the Leads tab's filtered list is
therefore non-empty and the detail string is its first element. -/
lemma lead_detail_core (convs L E : List Conv)
    (h : classify convs = .ok (L, E)) (c : Conv) (hc : c ∈ L) :
    ∃ msgs s rest, c.history = some msgs ∧
      matchedContents leadDetailPat msgs = s :: rest ∧
      detailList leadDetailPat c = .ok (s :: rest) ∧
      detailOf leadDetailPat c = .ok s := by
  have hLE := classify_ok_elim convs (L, E) h
  have hL : L = leadsOf convs := congrArg Prod.fst hLE
  rw [hL] at hc
  obtain ⟨hmem, hcnt⟩ := mem_leadsOf.mp hc
  have hwf : wfConv c := wf_of_classify_ok convs (L, E) h c hmem
  obtain ⟨msgs, hh⟩ : ∃ msgs, c.history = some msgs := by
    cases hh : c.history with
    | none =>
      exfalso
      apply hcnt
      rw [leadCount, hh]
      rfl
    | some msgs => exact ⟨msgs, rfl⟩
  have hpos : 0 < List.countP (fun m => decide (msgLead m)) msgs := by
    have := Nat.pos_of_ne_zero hcnt
    rw [leadCount, hh] at this
    exact this
  obtain ⟨m, hm, hmt⟩ := List.countP_pos_iff.mp hpos
  have hex : ∃ m ∈ msgs, msgMatch leadDetailPat m :=
    ⟨m, hm, msgMatch_leadDetail_of_msgLead (of_decide_eq_true hmt)⟩
  obtain ⟨s, rest, h1, h2, h3⟩ := detail_of_match leadDetailPat c hwf msgs hh hex
  exact ⟨msgs, s, rest, hh, h1, h2, h3⟩

/-- Escalations-tab analogue of `lead_detail_core`. -/
lemma esc_detail_core (convs L E : List Conv)
    (h : classify convs = .ok (L, E)) (c : Conv) (hc : c ∈ E) :
    ∃ msgs s rest, c.history = some msgs ∧
      matchedContents escDetailPat msgs = s :: rest ∧
      detailList escDetailPat c = .ok (s :: rest) ∧
      detailOf escDetailPat c = .ok s := by
  have hLE := classify_ok_elim convs (L, E) h
  have hE : E = escalationsOf convs := congrArg Prod.snd hLE
  rw [hE] at hc
  obtain ⟨hmem, hcnt⟩ := mem_escalationsOf.mp hc
  have hwf : wfConv c := wf_of_classify_ok convs (L, E) h c hmem
  obtain ⟨msgs, hh⟩ : ∃ msgs, c.history = some msgs := by
    cases hh : c.history with
    | none =>
      exfalso
      apply hcnt
      rw [escCount, hh]
      rfl
    | some msgs => exact ⟨msgs, rfl⟩
  have hpos : 0 < List.countP (fun m => decide (msgEsc m)) msgs := by
    have := Nat.pos_of_ne_zero hcnt
    rw [escCount, hh] at this
    exact this
  obtain ⟨m, hm, hmt⟩ := List.countP_pos_iff.mp hpos
  have hex : ∃ m ∈ msgs, msgMatch escDetailPat m :=
    ⟨m, hm, msgMatch_escDetail_of_msgEsc (of_decide_eq_true hmt)⟩
  obtain ⟨s, rest, h1, h2, h3⟩ := detail_of_match escDetailPat c hwf msgs hh hex
  exact ⟨msgs, s, rest, hh, h1, h2, h3⟩

/-- C8 counterexample: `c8conv` is classified as a lead by its second AI
message (the only one containing a marker phrase), yet the Leads tab's
detail string is the first AI message containing the generic filter
`"I've"`, which contains no marker phrase — the detail shown is not the
message that caused classification. -/
theorem C8_detail_not_trigger_counterexample :
    classify [c8conv] = .ok ([c8conv], []) ∧
      detailOf leadDetailPat c8conv = .ok "I've checked our schedule for you" ∧
      ¬ pyIn leadPhrase1 "I've checked our schedule for you" ∧
      ¬ pyIn leadPhrase2 "I've checked our schedule for you" ∧
      "I've checked our schedule for you" ≠ "I've scheduled your 7-day free trial" := by
  decide

/-- C8 (amended): for each classified conversation the detail string equals
the content of the first AI message whose content contains the tab's
filter substring — `"I've"` for leads, `"I've passed your request"` for
escalations — which need not be the message that caused classification. -/
theorem C8_detail_first_filter_match (convs L E : List Conv)
    (h : classify convs = .ok (L, E)) (c : Conv) :
    (c ∈ L → ∃ msgs s rest, c.history = some msgs ∧
      matchedContents leadDetailPat msgs = s :: rest ∧
      detailOf leadDetailPat c = .ok s) ∧
    (c ∈ E → ∃ msgs s rest, c.history = some msgs ∧
      matchedContents escDetailPat msgs = s :: rest ∧
      detailOf escDetailPat c = .ok s) := by
  constructor
  · intro hc
    obtain ⟨msgs, s, rest, h1, h2, -, h4⟩ := lead_detail_core convs L E h c hc
    exact ⟨msgs, s, rest, h1, h2, h4⟩
  · intro hc
    obtain ⟨msgs, s, rest, h1, h2, -, h4⟩ := esc_detail_core convs L E h c hc
    exact ⟨msgs, s, rest, h1, h2, h4⟩

/-- C8 witness: on `c8conv` the Leads-tab detail is the first
`"I've"`-containing AI content. -/
theorem C8_detail_first_filter_match_witness :
    ∃ msgs s rest, c8conv.history = some msgs ∧
      matchedContents leadDetailPat msgs = s :: rest ∧
      detailOf leadDetailPat c8conv = .ok s :=
  (C8_detail_first_filter_match [c8conv] [c8conv] [] (by decide) c8conv).1 (by decide)

/-- C9: if the classification pass placed a conversation in `leads`
(resp. `escalations`), the filtered list of the corresponding tab is
non-empty, so taking its element `[0]` cannot raise: every lead-marker
phrase contains `"I've"` and the escalation marker contains
`"I've passed your request"`. -/
theorem C9_detail_index_safe (convs L E : List Conv)
    (h : classify convs = .ok (L, E)) (c : Conv) :
    (c ∈ L → ∃ s rest, detailList leadDetailPat c = .ok (s :: rest) ∧
      detailOf leadDetailPat c = .ok s) ∧
    (c ∈ E → ∃ s rest, detailList escDetailPat c = .ok (s :: rest) ∧
      detailOf escDetailPat c = .ok s) := by
  constructor
  · intro hc
    obtain ⟨msgs, s, rest, -, -, h3, h4⟩ := lead_detail_core convs L E h c hc
    exact ⟨s, rest, h3, h4⟩
  · intro hc
    obtain ⟨msgs, s, rest, -, -, h3, h4⟩ := esc_detail_core convs L E h c hc
    exact ⟨s, rest, h3, h4⟩

/-- C9 witness: on the lead conversation `c9demo`, element `[0]` of the
Leads-tab filtered list exists. -/
theorem C9_detail_index_safe_witness :
    ∃ s rest, detailList leadDetailPat c9demo = .ok (s :: rest) ∧
      detailOf leadDetailPat c9demo = .ok s :=
  (C9_detail_index_safe [c9demo] [c9demo] [] (by decide) c9demo).1 (by decide)

/-- An AI message whose content contains at least one of the three marker
phrases: exactly the messages on which the loop body appends the
conversation to one of the two lists. -/
def msgMarker (m : Message) : Prop :=
  m.type = some "ai" ∧ (pyIn leadPhrase1 (contentOf m) ∨
    pyIn leadPhrase2 (contentOf m) ∨ pyIn escPhrase (contentOf m))

instance (m : Message) : Decidable (msgMarker m) :=
  inferInstanceAs (Decidable (_ ∧ _))

/-- Number of marker-bearing AI messages of a conversation. -/
def markerCount (c : Conv) : Nat :=
  (c.history.getD []).countP fun m => decide (msgMarker m)

lemma msgMarker_iff (m : Message) : msgMarker m ↔ msgLead m ∨ msgEsc m := by
  constructor
  · rintro ⟨hty, h⟩
    by_cases h1 : pyIn leadPhrase1 (contentOf m)
    · exact Or.inl ⟨hty, Or.inl h1⟩
    by_cases h2 : pyIn leadPhrase2 (contentOf m)
    · exact Or.inl ⟨hty, Or.inr h2⟩
    rcases h with h | h | h
    · exact absurd h h1
    · exact absurd h h2
    · exact Or.inr ⟨hty, h1, h2, h⟩
  · rintro (⟨hty, h1 | h2⟩ | ⟨hty, -, -, h3⟩)
    · exact ⟨hty, Or.inl h1⟩
    · exact ⟨hty, Or.inr (Or.inl h2)⟩
    · exact ⟨hty, Or.inr (Or.inr h3)⟩

lemma countP_lead_add_esc (msgs : List Message) :
    msgs.countP (fun m => decide (msgLead m)) +
      msgs.countP (fun m => decide (msgEsc m)) =
    msgs.countP fun m => decide (msgMarker m) := by
  induction msgs with
  | nil => rfl
  | cons m ms ih =>
    by_cases hl : msgLead m
    · have he : ¬ msgEsc m := msgLead_not_msgEsc hl
      have hmk : msgMarker m := (msgMarker_iff m).mpr (Or.inl hl)
      simp [List.countP_cons, hl, he, hmk]
      omega
    · by_cases he : msgEsc m
      · have hmk : msgMarker m := (msgMarker_iff m).mpr (Or.inr he)
        simp [List.countP_cons, hl, he, hmk]
        omega
      · have hmk : ¬ msgMarker m := fun h => by
          rcases (msgMarker_iff m).mp h with h' | h'
          · exact hl h'
          · exact he h'
        simp [List.countP_cons, hl, he, hmk]
        omega

lemma lead_add_esc_count (c : Conv) :
    leadCount c + escCount c = markerCount c :=
  countP_lead_add_esc (c.history.getD [])

lemma sum_lead_add_esc (convs : List Conv) :
    (convs.map leadCount).sum + (convs.map escCount).sum =
      (convs.map markerCount).sum := by
  induction convs with
  | nil => rfl
  | cons c cs ih =>
    simp only [List.map_cons, List.sum_cons]
    have := lead_add_esc_count c
    omega

/-- C10: on well-formed input (the pass completed), a conversation's number
of occurrences in `leads` plus its occurrences in `escalations` equals the
number of its marker-bearing AI messages, and the two metric values
`len(leads)` and `len(escalations)` sum to the total number of
marker-bearing AI messages of the batch: the metrics count matching
messages, not distinct conversations. -/
theorem C10_counts_are_message_counts (convs L E : List Conv)
    (h : classify convs = .ok (L, E)) (hnd : convs.Nodup)
    (c : Conv) (hc : c ∈ convs) :
    L.count c + E.count c = markerCount c ∧
      L.length + E.length = (convs.map markerCount).sum := by
  have hLE := classify_ok_elim convs (L, E) h
  have hL : L = leadsOf convs := congrArg Prod.fst hLE
  have hE : E = escalationsOf convs := congrArg Prod.snd hLE
  subst hL hE
  constructor
  · rw [count_leadsOf hnd hc, count_escalationsOf hnd hc, lead_add_esc_count]
  · rw [length_leadsOf, length_escalationsOf, sum_lead_add_esc]

/-- C10 witness: `c10demo` has one lead-marker and one escalation-marker AI
message; it occurs once in each list, matching its two marker messages. -/
theorem C10_counts_witness :
    List.count c10demo [c10demo] + List.count c10demo [c10demo] = markerCount c10demo ∧
      List.length [c10demo] + List.length [c10demo] = ([c10demo].map markerCount).sum :=
  C10_counts_are_message_counts [c10demo] [c10demo] [c10demo]
    (by decide) (by decide) c10demo (by decide)

/-- C4: the activity histogram has one entry per calendar date occurring in
the batch, each entry counting the conversations updated on that date;
every conversation falls in exactly one bucket, so the counts sum to the
total number of conversations, the dates are pairwise distinct, and a date
on which no conversation was updated has no entry. -/
theorem C4_histogram (convs : List Conv) (hne : convs ≠ []) :
    (∀ d n, (d, n) ∈ conv_by_date convs →
        n = convs.countP (fun c => decide (dateOf c.updated_at = d)) ∧ 0 < n) ∧
    ((conv_by_date convs).map Prod.snd).sum = convs.length ∧
    ((conv_by_date convs).map Prod.fst).Nodup ∧
    ∀ d, (∀ c ∈ convs, dateOf c.updated_at ≠ d) →
        ∀ n, (d, n) ∉ conv_by_date convs := by
  refine ⟨?_, ?_, ?_, ?_⟩
  · intro d n hdn
    rw [conv_by_date] at hdn
    obtain ⟨d', hd', heq⟩ := List.mem_map.mp hdn
    obtain ⟨hd, hn⟩ := Prod.mk.injEq .. ▸ heq
    subst hd hn
    constructor
    · exact count_dateKeys convs d' 
    · exact List.count_pos_iff.mpr (List.mem_dedup.mp hd')
  · rw [conv_by_date, List.map_map]
    rw [show (Prod.snd ∘ fun d => (d, (dateKeys convs).count d))
        = fun d => (dateKeys convs).count d from rfl]
    rw [List.sum_map_count_dedup_eq_length]
    simp [dateKeys]
  · rw [conv_by_date, List.map_map]
    rw [show (Prod.fst ∘ fun d => (d, (dateKeys convs).count d)) = id from rfl]
    rw [List.map_id]
    exact List.nodup_dedup _
  · intro d hd n hdn
    rw [conv_by_date] at hdn
    obtain ⟨d', hd', heq⟩ := List.mem_map.mp hdn
    obtain ⟨hdd, -⟩ := Prod.mk.injEq .. ▸ heq
    subst hdd
    have : d' ∈ dateKeys convs := List.mem_dedup.mp hd'
    obtain ⟨c, hc, hcd⟩ := List.mem_map.mp this
    exact hd c hc hcd

/-- C4 witness: two conversations on day 0 and one on day 1 yield the
histogram `[(0, 2), (1, 1)]` with the stated properties. -/
theorem C4_histogram_witness :
    (∀ d n, (d, n) ∈ conv_by_date c4demo →
        n = c4demo.countP (fun c => decide (dateOf c.updated_at = d)) ∧ 0 < n) ∧
    ((conv_by_date c4demo).map Prod.snd).sum = c4demo.length ∧
    ((conv_by_date c4demo).map Prod.fst).Nodup ∧
    ∀ d, (∀ c ∈ c4demo, dateOf c.updated_at ≠ d) →
        ∀ n, (d, n) ∉ conv_by_date c4demo :=
  C4_histogram c4demo (by decide)

/-- C5: with pairwise distinct `updated_at` values, the recent view has
`min 10 n` entries, drawn without repetition from the batch, strictly
descending in `updated_at`, and every surfaced conversation is more recent
than every conversation left out. -/
theorem C5_recent_view (convs : List Conv)
    (hnd : (convs.map Conv.updated_at).Nodup) :
    (recent_conversations convs).length = min 10 convs.length ∧
    (recent_conversations convs).Subperm convs ∧
    (recent_conversations convs).Pairwise
      (fun a b => b.updated_at < a.updated_at) ∧
    ∀ x ∈ recent_conversations convs, ∀ y ∈ convs,
      y ∉ recent_conversations convs → y.updated_at < x.updated_at := by
  have hperm :
      (convs.mergeSort fun a b => decide (b.updated_at ≤ a.updated_at)).Perm
        convs :=
    List.mergeSort_perm convs _
  have hsorted := sorted_desc convs
  have hkeys :
      ((convs.mergeSort fun a b =>
        decide (b.updated_at ≤ a.updated_at)).map Conv.updated_at).Nodup :=
    ((hperm.map Conv.updated_at).nodup_iff).mpr hnd
  have hne :
      (convs.mergeSort fun a b => decide (b.updated_at ≤ a.updated_at)).Pairwise
        fun a b => a.updated_at ≠ b.updated_at :=
    List.pairwise_map.mp hkeys
  have hstrict :
      (convs.mergeSort fun a b => decide (b.updated_at ≤ a.updated_at)).Pairwise
        fun a b => b.updated_at < a.updated_at :=
    (hsorted.and hne).imp fun {a b} hab =>
      Nat.lt_of_le_of_ne hab.1 fun he => hab.2 he.symm
  refine ⟨?_, ?_, ?_, ?_⟩
  · rw [recent_conversations, List.length_take, hperm.length_eq]
  · exact ((List.take_sublist 10 _).subperm).trans hperm.subperm
  · exact List.Pairwise.sublist (List.take_sublist 10 _) hstrict
  · intro x hx y hy hynot
    have hys : y ∈ convs.mergeSort fun a b => decide (b.updated_at ≤ a.updated_at) :=
      hperm.mem_iff.mpr hy
    rw [← List.take_append_drop 10
      (convs.mergeSort fun a b => decide (b.updated_at ≤ a.updated_at))] at hys
    have hydrop : y ∈ (convs.mergeSort fun a b =>
        decide (b.updated_at ≤ a.updated_at)).drop 10 := by
      rcases List.mem_append.mp hys with hl | hl
      · exact absurd hl hynot
      · exact hl
    have hp : ((convs.mergeSort fun a b =>
          decide (b.updated_at ≤ a.updated_at)).take 10 ++
        (convs.mergeSort fun a b =>
          decide (b.updated_at ≤ a.updated_at)).drop 10).Pairwise
        fun a b => b.updated_at < a.updated_at := by
      rw [List.take_append_drop]
      exact hstrict
    exact (List.pairwise_append.mp hp).2.2 x hx y hydrop

/-- C5 witness: twelve conversations with distinct timestamps. -/
theorem C5_recent_view_witness :
    (recent_conversations c5demo).length = min 10 c5demo.length ∧
    (recent_conversations c5demo).Subperm c5demo ∧
    (recent_conversations c5demo).Pairwise
      (fun a b => b.updated_at < a.updated_at) ∧
    ∀ x ∈ recent_conversations c5demo, ∀ y ∈ c5demo,
      y ∉ recent_conversations c5demo → y.updated_at < x.updated_at :=
  C5_recent_view c5demo (by decide)

end Dashboard
